import Mathlib

/-!
Verification of the xattr chaining layer of `src/os/filestore/chain_xattr.cc`.

The layer splits one logical extended attribute into a chain of bounded-size
physical xattrs.  Physical keys are the logical name with every '@' doubled,
plus a suffix "@<i>" for chunk index i > 0.  We shallowly embed the C code:

* strings are `List Char` (the content of a NUL-terminated C string);
* byte buffers are `List Nat`;
* the physical per-object xattr store is an association list from raw key to
  value, and the `sys_*` primitives (external collaborators of this file,
  declared in the spec's capability interface) are modelled over it;
* each C loop becomes a structurally recursive function.  Loops whose
  iteration count is bounded by a loop-local quantity (remaining capacity,
  store size) take that bound plus one as an explicit structural fuel
  argument; the fuel-zero branch is unreachable from the wrappers because
  every continued round either consumes at least one block of capacity or
  removes one store entry.  The growing-buffer loop of `chain_getxattr_buf`
  is unbounded in the C source, so its round count is an explicit parameter.

The path-addressed and descriptor-addressed variants of each operation are
textually identical in the source except for the primitive they call; over
the abstract store both primitives coincide, so the `f`-variants are defined
to be the path variants.
-/

set_option autoImplicit false

/-- Modelled from the spec: errno value for "no such attribute" (ENODATA on
Linux, from errno.h which is outside this repository). -/
def ENODATA : Int := 61

/-- Modelled from the spec: errno value for "buffer too small" (ERANGE). -/
def ERANGE : Int := 34

/-- Modelled from the spec: errno value for "out of memory" (ENOMEM). -/
def ENOMEM : Int := 12

/-- Modelled from the spec: the "max" block size constant
`CHAIN_XATTR_MAX_BLOCK_LEN` of chain_xattr.h (the header is not part of the
given sources; only the existence of two distinct positive block-size
constants matters to the claims). -/
def CHAIN_XATTR_MAX_BLOCK_LEN : Nat := 2048

/-- Modelled from the spec: the "short" block size constant
`CHAIN_XATTR_SHORT_BLOCK_LEN` of chain_xattr.h. -/
def CHAIN_XATTR_SHORT_BLOCK_LEN : Nat := 256

/-- Modelled from the spec: the short-value threshold
`CHAIN_XATTR_SHORT_LEN_THRESHOLD` of chain_xattr.h. -/
def CHAIN_XATTR_SHORT_LEN_THRESHOLD : Nat := 512

/-- Decimal digit character, as produced by snprintf's %d conversion.
The default arm is unreachable for arguments below ten. -/
def digitChar (d : Nat) : Char :=
  match d with
  | 0 => '0'
  | 1 => '1'
  | 2 => '2'
  | 3 => '3'
  | 4 => '4'
  | 5 => '5'
  | 6 => '6'
  | 7 => '7'
  | 8 => '8'
  | _ => '9'

/-- Decimal rendering of a natural number, fuelled so that it is structural
(fuel `n + 1` always suffices since the argument shrinks by a factor of
ten each step). -/
def natChars_go : Nat → Nat → List Char
  | 0, _ => []
  | fuel + 1, n =>
    if n < 10 then [digitChar n]
    else natChars_go fuel (n / 10) ++ [digitChar (n % 10)]

/-- Decimal rendering of a natural number, as produced by snprintf "%d". -/
def natChars (n : Nat) : List Char :=
  natChars_go (n + 1) n

/-- Escape a logical name: every '@' is doubled (the escape-scan loop of
`get_raw_xattr_name`). -/
def escapeName : List Char → List Char
  | [] => []
  | c :: rest =>
    if c = '@' then '@' :: '@' :: escapeName rest
    else c :: escapeName rest

/-- Embedding of `get_raw_xattr_name` (chain_xattr.cc:32): escape the logical
name and, for chunk index i > 0, append the "@<i>" suffix.  The C buffer
size asserts are a caller contract and are not modelled. -/
def get_raw_xattr_name (name : List Char) (i : Nat) : List Char :=
  escapeName name ++ (if i = 0 then [] else '@' :: natChars i)

/-- Embedding of `translate_raw_name` (chain_xattr.cc:63) on the content of
the NUL-terminated raw key.  Result: the decoded logical name and the
is_first flag.  In the case of an unescaped '@' directly before the
terminator, the C code's `break` leaves the switch only: it skips one output
byte and then scans past the terminator, an out-of-bounds read whose result
depends on bytes outside the string; the model returns `none` there (see
`translate_raw_name_buf` for the behaviour on a surrounding buffer). -/
def translate_raw_name : List Char → Option (List Char × Bool)
  | [] => some ([], true)
  | c :: rest =>
    if c = '@' then
      match rest with
      | [] => none
      | c' :: rest' =>
        if c' = '@' then
          (translate_raw_name rest').map (fun p => ('@' :: p.1, p.2))
        else some ([], false)
    else (translate_raw_name rest).map (fun p => (c :: p.1, p.2))

/-- The NUL terminator byte. -/
def NUL : Char := '\x00'

/-- Embedding of `translate_raw_name` at the buffer level: the argument is
the raw bytes of the buffer holding the key (terminator included, possibly
followed by further bytes, e.g. the next key of a listxattr stream).  Output
cells are `some c` for a written byte and `none` for a byte the C code skips
without writing (the slot left uninitialised in the trailing-'@' case).
Reading past the end of the supplied buffer yields `none`. -/
def translate_raw_name_buf : List Char → Option (List (Option Char) × Bool)
  | [] => none
  | c :: rest =>
    if c = NUL then some ([], true)
    else if c = '@' then
      match rest with
      | [] => none
      | c' :: rest' =>
        if c' = NUL then
          (translate_raw_name_buf rest').map (fun p => ((none : Option Char) :: p.1, p.2))
        else if c' = '@' then
          (translate_raw_name_buf rest').map (fun p => (some '@' :: p.1, p.2))
        else some ([], false)
    else (translate_raw_name_buf rest).map (fun p => (some c :: p.1, p.2))

/-- The physical xattr store of one object: raw key to value, in listing
order. -/
abbrev Store : Type := List (List Char × List Nat)

/-- First value stored under a key. -/
def find : Store → List Char → Option (List Nat)
  | [], _ => none
  | kv :: rest, key => if kv.1 = key then some kv.2 else find rest key

/-- Modelled from the spec: the primitive single-key get (`sys_getxattr` /
`sys_fgetxattr`, external to this file).  Returns the length (and, for a
nonzero capacity, the bytes); capacity zero reports the length only;
a capacity smaller than the stored value fails with -ERANGE; a missing key
fails with -ENODATA. -/
def sys_getxattr (st : Store) (key : List Char) (cap : Nat) : Int × List Nat :=
  match find st key with
  | none => (-ENODATA, [])
  | some v =>
    if cap = 0 then ((v.length : Int), [])
    else if cap < v.length then (-ERANGE, [])
    else ((v.length : Int), v)

/-- Modelled from the spec: the primitive single-key remove
(`sys_removexattr` / `sys_fremovexattr`, external to this file). -/
def sys_removexattr (st : Store) (key : List Char) : Int × Store :=
  match find st key with
  | none => (-ENODATA, st)
  | some _ => (0, st.filter (fun kv => kv.1 ≠ key))

/-- Modelled from the spec: the primitive list (`sys_listxattr` /
`sys_flistxattr`, external to this file), over the abstract store.  Capacity
zero reports the byte size of the NUL-terminated key stream; an
insufficient capacity fails with -ERANGE; otherwise the keys are returned
(the model keeps them as a list rather than a flat byte stream). -/
def sys_listxattr (st : Store) (cap : Nat) : Int × List (List Char) :=
  if cap = 0 then ((((st.map (fun kv => kv.1.length + 1)).sum : Nat) : Int), [])
  else if cap < (st.map (fun kv => kv.1.length + 1)).sum then (-ERANGE, [])
  else ((((st.map (fun kv => kv.1.length + 1)).sum : Nat) : Int), st.map Prod.fst)

/-- Loop of `getxattr_len` (chain_xattr.cc:97): probe ascending chunk
indices with zero-length gets, propagating a chunk-0 failure, stopping at
any later failure, and continuing past a chunk exactly when its length is
one of the two block-size constants.  Arguments: fuel, chunk index, running
total.  Fuel `st.length + 1` always suffices: each continued round has
found one more distinct present key. -/
def getxattr_len_go (st : Store) (name : List Char) : Nat → Nat → Nat → Int
  | 0, _, total => (total : Int)
  | fuel + 1, i, total =>
    let r := (sys_getxattr st (get_raw_xattr_name name i) 0).1
    if i = 0 ∧ r < 0 then r
    else if r < 0 then (total : Int)
    else
      let total' := total + r.toNat
      if r = (CHAIN_XATTR_MAX_BLOCK_LEN : Int) ∨ r = (CHAIN_XATTR_SHORT_BLOCK_LEN : Int)
      then getxattr_len_go st name fuel (i + 1) total'
      else (total' : Int)

/-- Embedding of `getxattr_len` (chain_xattr.cc:97). -/
def getxattr_len (st : Store) (name : List Char) : Int :=
  getxattr_len_go st name (st.length + 1) 0 0

/-- Loop of `chain_getxattr` (chain_xattr.cc:129): bounded read across
ascending chunk indices.  Arguments: fuel, chunk index i, bytes written so
far pos, accumulated buffer contents, remaining capacity size.  An -ENODATA
at i > 0 is end of chain (return bytes so far); any other failure is
returned as is; after the loop, if the remaining capacity at the start of
the last round (the C local chunk_size, which equals this round's `size`)
equalled a block-size constant, one zero-length probe at the next index
turns a deceptively complete-looking result into -ERANGE when more data
exists.  Fuel `size + 1` always suffices: every continued round consumes at
least `CHAIN_XATTR_SHORT_BLOCK_LEN` bytes of capacity. -/
def chain_getxattr_go (st : Store) (name : List Char) :
    Nat → Nat → Nat → List Nat → Nat → Int × List Nat
  | 0, _, pos, acc, _ => ((pos : Int), acc)
  | fuel + 1, i, pos, acc, size =>
    let res := sys_getxattr st (get_raw_xattr_name name i) size
    let r := res.1
    if i ≠ 0 ∧ r = -ENODATA then ((pos : Int), acc)
    else if r < 0 then (r, acc)
    else
      let pos' := pos + r.toNat
      let size' := size - r.toNat
      let acc' := acc ++ res.2
      if size' ≠ 0 ∧ (r = (CHAIN_XATTR_MAX_BLOCK_LEN : Int) ∨ r = (CHAIN_XATTR_SHORT_BLOCK_LEN : Int))
      then chain_getxattr_go st name fuel (i + 1) pos' acc' size'
      else
        if size = CHAIN_XATTR_MAX_BLOCK_LEN ∨ size = CHAIN_XATTR_SHORT_BLOCK_LEN then
          if (sys_getxattr st (get_raw_xattr_name name (i + 1)) 0).1 > 0
          then (-ERANGE, acc')
          else ((pos' : Int), acc')
        else ((pos' : Int), acc')

/-- Embedding of `chain_getxattr` (chain_xattr.cc:118): capacity zero
delegates to the length-only probe; otherwise run the bounded-read loop.
The returned list is the sequence of bytes written into the caller's
buffer. -/
def chain_getxattr (st : Store) (name : List Char) (size : Nat) : Int × List Nat :=
  if size = 0 then (getxattr_len st name, [])
  else chain_getxattr_go st name (size + 1) 0 0 [] size

/-- Loop of `chain_getxattr_buf` (chain_xattr.cc:168): bounded read with the
current buffer size; a positive result is returned with the buffer trimmed
to that length; zero returns an empty result; -ERANGE doubles the size and
retries; anything else is propagated.  The C loop is `while (1)` with no
bound, so the number of rounds is an explicit fuel parameter here. -/
def chain_getxattr_buf_go (st : Store) (name : List Char) : Nat → Nat → Int × List Nat
  | 0, _ => (0, [])
  | fuel + 1, size =>
    let res := chain_getxattr st name size
    if res.1 > 0 then res
    else if res.1 = 0 then (0, [])
    else if res.1 = -ERANGE then chain_getxattr_buf_go st name fuel (size * 2)
    else (res.1, [])

/-- Embedding of `chain_getxattr_buf` (chain_xattr.cc:168), starting from the
initial buffer size of 1024 bytes. -/
def chain_getxattr_buf (st : Store) (name : List Char) (fuel : Nat) : Int × List Nat :=
  chain_getxattr_buf_go st name fuel 1024

/-- Embedding of `chain_fgetxattr_len` (chain_xattr.cc:197); textually the
same algorithm as `getxattr_len`, only the primitive is descriptor
addressed, which the store model does not distinguish. -/
def chain_fgetxattr_len (st : Store) (name : List Char) : Int :=
  getxattr_len st name

/-- Embedding of `chain_fgetxattr` (chain_xattr.cc:218); same algorithm as
`chain_getxattr` over the abstract store. -/
def chain_fgetxattr (st : Store) (name : List Char) (size : Nat) : Int × List Nat :=
  chain_getxattr st name size

/-- Embedding of `get_xattr_block_size` (chain_xattr.cc:271). -/
def get_xattr_block_size (size : Nat) : Nat :=
  if size ≤ CHAIN_XATTR_SHORT_LEN_THRESHOLD then CHAIN_XATTR_SHORT_BLOCK_LEN
  else CHAIN_XATTR_MAX_BLOCK_LEN

/-- Loop of `chain_removexattr` (chain_xattr.cc:282): remove ascending chunk
indices; a failure at index 0 is propagated, a failure at a later index ends
the loop with success.  Arguments: fuel, index, current store.  Fuel
`st.length + 1` always suffices: every continued round has removed one
store entry. -/
def chain_removexattr_go (name : List Char) : Nat → Nat → Store → Int × Store
  | 0, _, st => (0, st)
  | fuel + 1, i, st =>
    let res := sys_removexattr st (get_raw_xattr_name name i)
    if i = 0 ∧ res.1 < 0 then (res.1, res.2)
    else if 0 ≤ res.1 then chain_removexattr_go name fuel (i + 1) res.2
    else (0, res.2)

/-- Embedding of `chain_removexattr` (chain_xattr.cc:282); the result is the
returned code together with the store after the removals. -/
def chain_removexattr (st : Store) (name : List Char) : Int × Store :=
  chain_removexattr_go name (st.length + 1) 0 st

/-- Embedding of `chain_fremovexattr` (chain_xattr.cc:299); same algorithm
as `chain_removexattr` over the abstract store. -/
def chain_fremovexattr (st : Store) (name : List Char) : Int × Store :=
  chain_removexattr st name

/-- Inner loop of `chain_listxattr` (chain_xattr.cc:345): decode each raw
key; keys decoding with is_first are copied NUL-terminated into the
destination, whose capacity is checked first.  Arguments: destination
capacity, remaining keys, bytes of destination used, names written so far.
`none` propagates the undefined decode of a key with a trailing unescaped
'@' (see `translate_raw_name`). -/
def listLoop (len : Nat) : List (List Char) → Nat → List (List Char) → Option (Int × List (List Char))
  | [], used, acc => some ((used : Int), acc)
  | p :: rest, used, acc =>
    match translate_raw_name p with
    | none => none
    | some (nm, is_first) =>
      if is_first then
        if used + nm.length > len then some (-ERANGE, acc)
        else listLoop len rest (used + nm.length + 1) (acc ++ [nm])
      else listLoop len rest used acc

/-- Embedding of `chain_listxattr` (chain_xattr.cc:319) over an abstract
list primitive `prim` (capacity to result), as the C function is generic in
the syscall's behaviour.  Capacity zero returns twice the primitive's own
zero-capacity result; otherwise size the scratch buffer from a zero-length
probe, doubled, fill it, and filter/translate the keys.  The scratch
allocation is assumed to succeed (the -ENOMEM path is not modelled).  The
result is the returned code and the logical names written. -/
def chain_listxattr (prim : Nat → Int × List (List Char)) (len : Nat) :
    Option (Int × List (List Char)) :=
  if len = 0 then some ((prim 0).1 * 2, [])
  else if (prim 0).1 < 0 then some ((prim 0).1, [])
  else if (prim ((prim 0).1.toNat * 2)).1 < 0 then some ((prim ((prim 0).1.toNat * 2)).1, [])
  else listLoop len (prim ((prim 0).1.toNat * 2)).2 0 []

/-- Embedding of `chain_flistxattr` (chain_xattr.cc:367); same algorithm as
`chain_listxattr`. -/
def chain_flistxattr (prim : Nat → Int × List (List Char)) (len : Nat) :
    Option (Int × List (List Char)) :=
  chain_listxattr prim len

/-- Total length of a chunk list. -/
def chunksLen (chunks : List (List Nat)) : Nat :=
  (chunks.map List.length).sum

/-- A well-formed stored chain for a logical name: a block size that is one
of the two constants, a nonempty chunk list whose non-terminal chunks have
exactly that size and whose last chunk is no larger, each chunk present
under its encoded key, and no key at the next index (the write path's
invariant, spec section 3). -/
structure StoredChain (st : Store) (name : List Char) (B : Nat) (chunks : List (List Nat)) : Prop where
  bsize : B = CHAIN_XATTR_SHORT_BLOCK_LEN ∨ B = CHAIN_XATTR_MAX_BLOCK_LEN
  nonempty : chunks ≠ []
  full : ∀ j < chunks.length - 1, (chunks.getD j []).length = B
  last_le : (chunks.getD (chunks.length - 1) []).length ≤ B
  found : ∀ j < chunks.length, find st (get_raw_xattr_name name j) = some (chunks.getD j [])
  absent : find st (get_raw_xattr_name name chunks.length) = none

/-- Decimal value of a digit string, used to invert `natChars`. -/
def digitsVal (l : List Char) : Nat :=
  l.foldl (fun a c => 10 * a + (c.toNat - 48)) 0

/-- Sum of the lengths of the first `i` chunks. -/
def sumTo (chunks : List (List Nat)) : Nat → Nat
  | 0 => 0
  | i + 1 => sumTo chunks i + (chunks.getD i []).length

/-- Concatenation of the first `i` chunks. -/
def joinTo (chunks : List (List Nat)) : Nat → List Nat
  | 0 => []
  | i + 1 => joinTo chunks i ++ chunks.getD i []

/-- Length of the physical chunk stored at index `j` of a name's chain, if
present. -/
def chunkLen (st : Store) (name : List Char) (j : Nat) : Option Nat :=
  (find st (get_raw_xattr_name name j)).map List.length

theorem digitChar_ne_escape (d : Nat) : digitChar d ≠ '@' := by
  unfold digitChar
  split <;> decide

theorem natChars_go_ne_nil (fuel n : Nat) : natChars_go (fuel + 1) n ≠ [] := by
  unfold natChars_go
  split
  · simp
  · simp

theorem natChars_go_mem_ne_escape :
    ∀ fuel n c, c ∈ natChars_go fuel n → c ≠ '@' := by
  intro fuel
  induction fuel with
  | zero => intro n c hc; simp [natChars_go] at hc
  | succ f ih =>
    intro n c hc
    unfold natChars_go at hc
    split at hc
    · simp at hc
      subst hc
      exact digitChar_ne_escape n
    · rcases List.mem_append.1 hc with h | h
      · exact ih _ _ h
      · simp at h
        subst h
        exact digitChar_ne_escape (n % 10)

theorem translate_escape (nm : List Char) :
    translate_raw_name (escapeName nm) = some (nm, true) := by
  induction nm with
  | nil => rfl
  | cons a tl ih =>
    by_cases ha : a = '@'
    · subst ha
      simp [escapeName, translate_raw_name, ih]
    · rw [show escapeName (a :: tl) = a :: escapeName tl by simp [escapeName, ha]]
      rw [translate_raw_name.eq_def]
      simp only []
      rw [if_neg ha, ih]
      rfl

theorem translate_escape_suffix (nm : List Char) (c : Char) (rest : List Char)
    (hc : c ≠ '@') :
    translate_raw_name (escapeName nm ++ '@' :: c :: rest) = some (nm, false) := by
  induction nm with
  | nil => simp [escapeName, translate_raw_name, hc]
  | cons a tl ih =>
    by_cases ha : a = '@'
    · subst ha
      simp [escapeName, translate_raw_name, ih]
    · rw [show escapeName (a :: tl) = a :: escapeName tl by simp [escapeName, ha]]
      rw [List.cons_append, translate_raw_name.eq_def]
      simp only []
      rw [if_neg ha, ih]
      rfl

/-- C3: decoding the chunk-0 encoding of any logical name (escape characters
doubled, no suffix) recovers exactly that name and reports is_first = true. -/
theorem translate_roundtrip_chunk0 (name : List Char) :
    translate_raw_name (get_raw_xattr_name name 0) = some (name, true) := by
  simpa [get_raw_xattr_name] using translate_escape name

/-- C4: for every chunk index i > 0, decoding the encoding of (name, i)
recovers the logical name with is_first = false; in particular "a@b" encodes
chunk 1 as "a@@b@1", which decodes back to ("a@b", is_first = false). -/
theorem translate_roundtrip_chunk_pos :
    (∀ (name : List Char) (i : Nat), 0 < i →
      translate_raw_name (get_raw_xattr_name name i) = some (name, false)) ∧
    get_raw_xattr_name ['a', '@', 'b'] 1 = ['a', '@', '@', 'b', '@', '1'] ∧
    translate_raw_name ['a', '@', '@', 'b', '@', '1'] = some (['a', '@', 'b'], false) := by
  refine ⟨?_, by decide, by decide⟩
  intro name i hi
  have hi0 : i ≠ 0 := Nat.pos_iff_ne_zero.1 hi
  unfold get_raw_xattr_name
  rw [if_neg hi0]
  obtain ⟨c, rest, hrest⟩ : ∃ c rest, natChars i = c :: rest := by
    rcases h : natChars i with _ | ⟨c, rest⟩
    · exact absurd h (natChars_go_ne_nil i i)
    · exact ⟨c, rest, rfl⟩
  rw [hrest]
  have hmem : c ∈ natChars_go (i + 1) i := by
    rw [show natChars_go (i + 1) i = natChars i from rfl, hrest]
    exact List.mem_cons_self c rest
  exact translate_escape_suffix name c rest (natChars_go_mem_ne_escape (i + 1) i c hmem)

theorem translate_roundtrip_chunk_pos_witness :
    0 < 1 ∧
    translate_raw_name (get_raw_xattr_name ['a', '@', 'b'] 1) = some (['a', '@', 'b'], false) :=
  ⟨by decide, translate_roundtrip_chunk_pos.1 ['a', '@', 'b'] 1 (by decide)⟩

/-- C8: on a raw key whose final character is an unescaped '@', the decoder
does not stop with is_first = false as the spec prescribes: the C `break`
only leaves the switch, so the scan steps past the NUL terminator
(out-of-bounds read; `translate_raw_name` is undefined there) and, on a
listxattr buffer where the next key follows, keeps is_first = true, skips
one output byte and copies the following key's bytes. -/
theorem translate_trailing_escape_code_eval :
    translate_raw_name ['a', '@'] = none ∧
    translate_raw_name_buf ('a' :: '@' :: NUL :: 'f' :: 'o' :: 'o' :: NUL :: []) =
      some ([some 'a', none, some 'f', some 'o', some 'o'], true) := by
  constructor
  · decide
  · decide

theorem sys_getxattr_absent (st : Store) (k : List Char) (cap : Nat)
    (h : find st k = none) : sys_getxattr st k cap = (-ENODATA, []) := by
  simp [sys_getxattr, h]

theorem sys_getxattr_len_found (st : Store) (k : List Char) (v : List Nat)
    (h : find st k = some v) : sys_getxattr st k 0 = ((v.length : Int), []) := by
  simp [sys_getxattr, h]

theorem sys_getxattr_found (st : Store) (k : List Char) (v : List Nat) (cap : Nat)
    (h : find st k = some v) (hcap : cap ≠ 0) (hle : v.length ≤ cap) :
    sys_getxattr st k cap = ((v.length : Int), v) := by
  simp [sys_getxattr, h, hcap, Nat.not_lt.2 hle]

theorem find_filter_ne (st : Store) (key k : List Char) :
    find (st.filter (fun kv => kv.1 ≠ key)) k = if k = key then none else find st k := by
  induction st with
  | nil => simp [find]
  | cons kv rest ih =>
    by_cases h1 : kv.1 = key
    · rw [show (kv :: rest).filter (fun kv => kv.1 ≠ key) = rest.filter (fun kv => kv.1 ≠ key)
        by simp [List.filter, h1]]
      rw [ih]
      by_cases h2 : k = key
      · simp [h2]
      · have : kv.1 ≠ k := by rw [h1]; exact fun hk => h2 hk.symm
        simp [h2, find, this]
    · rw [show (kv :: rest).filter (fun kv => kv.1 ≠ key) = kv :: rest.filter (fun kv => kv.1 ≠ key)
        by simp [List.filter, h1]]
      by_cases h2 : kv.1 = k
      · have hk : ¬k = key := by rw [← h2]; exact fun hk => h1 hk
        simp [find, h2, hk]
      · simp only [find, if_neg h2, ih]

theorem digit_toNat (d : Nat) (h : d < 10) : (digitChar d).toNat - 48 = d := by
  interval_cases d <;> decide

theorem digitsVal_single (c : Char) : digitsVal [c] = c.toNat - 48 := by
  simp [digitsVal]

theorem digitsVal_append_single (xs : List Char) (c : Char) :
    digitsVal (xs ++ [c]) = 10 * digitsVal xs + (c.toNat - 48) := by
  simp [digitsVal, List.foldl_append]

theorem digitsVal_natChars_go :
    ∀ fuel n, n < fuel → digitsVal (natChars_go fuel n) = n := by
  intro fuel
  induction fuel with
  | zero => intro n h; omega
  | succ f ih =>
    intro n h
    unfold natChars_go
    by_cases h10 : n < 10
    · rw [if_pos h10, digitsVal_single, digit_toNat n h10]
    · rw [if_neg h10, digitsVal_append_single]
      have hdiv : n / 10 < n := Nat.div_lt_self (by omega) (by omega)
      rw [ih (n / 10) (by omega), digit_toNat (n % 10) (Nat.mod_lt n (by omega))]
      omega

theorem natChars_inj {a b : Nat} (h : natChars a = natChars b) : a = b := by
  have h2 : natChars_go (a + 1) a = natChars_go (b + 1) b := h
  calc a = digitsVal (natChars_go (a + 1) a) := (digitsVal_natChars_go _ _ (Nat.lt_succ_self a)).symm
    _ = digitsVal (natChars_go (b + 1) b) := by rw [h2]
    _ = b := digitsVal_natChars_go _ _ (Nat.lt_succ_self b)

theorem get_raw_xattr_name_inj (name : List Char) {i j : Nat}
    (h : get_raw_xattr_name name i = get_raw_xattr_name name j) : i = j := by
  unfold get_raw_xattr_name at h
  have h2 : (if i = 0 then ([] : List Char) else '@' :: natChars i) =
      (if j = 0 then [] else '@' :: natChars j) := List.append_cancel_left h
  by_cases hi : i = 0
  · by_cases hj : j = 0
    · rw [hi, hj]
    · rw [if_pos hi, if_neg hj] at h2
      exact absurd h2 (by simp)
  · by_cases hj : j = 0
    · rw [if_neg hi, if_pos hj] at h2
      exact absurd h2 (by simp)
    · rw [if_neg hi, if_neg hj] at h2
      simp only [List.cons.injEq] at h2
      exact natChars_inj h2.2

theorem find_isSome_mem :
    ∀ (st : Store) (k : List Char), (find st k).isSome → k ∈ st.map Prod.fst := by
  intro st
  induction st with
  | nil => intro k h; simp [find] at h
  | cons kv rest ih =>
    intro k h
    by_cases hk : kv.1 = k
    · simp [hk]
    · rw [show find (kv :: rest) k = find rest k by simp [find, hk]] at h
      simp only [List.map_cons, List.mem_cons]
      exact Or.inr (ih k h)

/-- If chunks at all indices below `n` are present, the store has at least
`n` entries (the encoded keys are pairwise distinct). -/
theorem present_indices_le (st : Store) (name : List Char) (n : Nat)
    (h : ∀ j < n, (find st (get_raw_xattr_name name j)).isSome) : n ≤ st.length := by
  have hnd : ((List.range n).map (fun j => get_raw_xattr_name name j)).Nodup :=
    List.Nodup.map (fun a b hab => get_raw_xattr_name_inj name hab) (List.nodup_range n)
  have hsub : (List.range n).map (fun j => get_raw_xattr_name name j) ⊆ st.map Prod.fst := by
    intro k hk
    rcases List.mem_map.1 hk with ⟨j, hj, rfl⟩
    exact find_isSome_mem st _ (h j (List.mem_range.1 hj))
  have hle := (List.Nodup.subperm hnd hsub).length_le
  simpa using hle

theorem chunkLen_find (st : Store) (name : List Char) (j t : Nat)
    (h : chunkLen st name j = some t) :
    ∃ v, find st (get_raw_xattr_name name j) = some v ∧ v.length = t := by
  rcases Option.map_eq_some'.1 h with ⟨v, hv, hlen⟩
  exact ⟨v, hv, hlen⟩

/-- Run of the length-probe loop over a window of chunk lengths whose final
entry is not a block-size constant: the loop adds every entry and stops
right after the final one. -/
theorem getxattr_len_go_run_A (st : Store) (name : List Char) :
    ∀ (ts : List Nat) (i total fuel : Nat),
    ts ≠ [] →
    (∀ j < ts.length, chunkLen st name (i + j) = some (ts.getD j 0)) →
    (∀ j, j + 1 < ts.length →
      (ts.getD j 0 = CHAIN_XATTR_MAX_BLOCK_LEN ∨ ts.getD j 0 = CHAIN_XATTR_SHORT_BLOCK_LEN)) →
    ¬(ts.getD (ts.length - 1) 0 = CHAIN_XATTR_MAX_BLOCK_LEN ∨
      ts.getD (ts.length - 1) 0 = CHAIN_XATTR_SHORT_BLOCK_LEN) →
    ts.length ≤ fuel →
    getxattr_len_go st name fuel i total = ((total + ts.sum : Nat) : Int) := by
  intro ts
  induction ts with
  | nil => intro i total fuel hne; exact absurd rfl hne
  | cons t rest ih =>
    intro i total fuel hne hpres hfull hlast hfuel
    obtain ⟨f, rfl⟩ : ∃ f, fuel = f + 1 := by
      cases fuel with
      | zero => simp at hfuel
      | succ f => exact ⟨f, rfl⟩
    obtain ⟨v, hv, hlen⟩ := chunkLen_find st name i t (by simpa using hpres 0 (by simp))
    have hr : (sys_getxattr st (get_raw_xattr_name name i) 0).1 = (t : Int) := by
      rw [sys_getxattr_len_found st _ v hv, hlen]
    unfold getxattr_len_go
    rw [hr]
    rw [if_neg (by intro hc; exact absurd hc.2 (by simp [Int.natCast_nonneg]))]
    rw [if_neg (by simp [Int.natCast_nonneg])]
    simp only [Int.toNat_natCast]
    cases rest with
    | nil =>
      rw [if_neg ?hcond]
      case hcond =>
        intro hc
        apply hlast
        simpa [Nat.cast_inj] using hc
      simp
    | cons t2 rest2 =>
      rw [if_pos ?hcond]
      case hcond =>
        have := hfull 0 (by simp)
        simp only [List.getD_cons_zero] at this
        rcases this with h | h <;> [left; right] <;> simp [h]
      rw [ih (i + 1) (total + t) f (by simp)
        (fun j hj => by
          have := hpres (j + 1) (by simpa using Nat.succ_lt_succ hj)
          simpa [Nat.add_assoc, Nat.add_comm 1 j] using this)
        (fun j hj => by
          have := hfull (j + 1) (by simpa using Nat.succ_lt_succ hj)
          simpa using this)
        (by
          have heq : ((t :: t2 :: rest2).length - 1) = (t2 :: rest2).length - 1 + 1 := by
            simp
          rw [heq] at hlast
          simpa using hlast)
        (by simp only [List.length_cons] at hfuel ⊢; omega)]
      have hnat : total + t + (t2 :: rest2).sum = total + (t :: t2 :: rest2).sum := by
        simp only [List.sum_cons]
        omega
      rw [hnat]

/-- Run of the length-probe loop over a window of block-size-constant chunk
lengths followed by an absent index: the loop adds every entry and stops at
the failing probe, which is not at index 0. -/
theorem getxattr_len_go_run_B (st : Store) (name : List Char) :
    ∀ (ts : List Nat) (i total fuel : Nat),
    (i = 0 → ts ≠ []) →
    (∀ j < ts.length, chunkLen st name (i + j) = some (ts.getD j 0)) →
    (∀ j < ts.length,
      (ts.getD j 0 = CHAIN_XATTR_MAX_BLOCK_LEN ∨ ts.getD j 0 = CHAIN_XATTR_SHORT_BLOCK_LEN)) →
    find st (get_raw_xattr_name name (i + ts.length)) = none →
    ts.length + 1 ≤ fuel →
    getxattr_len_go st name fuel i total = ((total + ts.sum : Nat) : Int) := by
  intro ts
  induction ts with
  | nil =>
    intro i total fuel hi0 hpres hfull habs hfuel
    obtain ⟨f, rfl⟩ : ∃ f, fuel = f + 1 := by
      cases fuel with
      | zero => simp at hfuel
      | succ f => exact ⟨f, rfl⟩
    have hi : i ≠ 0 := fun h => absurd rfl (hi0 h)
    have hr : (sys_getxattr st (get_raw_xattr_name name i) 0).1 = -ENODATA := by
      rw [sys_getxattr_absent st _ 0 (by simpa using habs)]
    unfold getxattr_len_go
    rw [hr]
    rw [if_neg (by intro hc; exact hi hc.1)]
    rw [if_pos (by decide)]
    simp
  | cons t rest ih =>
    intro i total fuel hi0 hpres hfull habs hfuel
    obtain ⟨f, rfl⟩ : ∃ f, fuel = f + 1 := by
      cases fuel with
      | zero => simp at hfuel
      | succ f => exact ⟨f, rfl⟩
    obtain ⟨v, hv, hlen⟩ := chunkLen_find st name i t (by simpa using hpres 0 (by simp))
    have hr : (sys_getxattr st (get_raw_xattr_name name i) 0).1 = (t : Int) := by
      rw [sys_getxattr_len_found st _ v hv, hlen]
    unfold getxattr_len_go
    rw [hr]
    rw [if_neg (by intro hc; exact absurd hc.2 (by simp [Int.natCast_nonneg]))]
    rw [if_neg (by simp [Int.natCast_nonneg])]
    simp only [Int.toNat_natCast]
    rw [if_pos ?hcond]
    case hcond =>
      have := hfull 0 (by simp)
      simp only [List.getD_cons_zero] at this
      rcases this with h | h <;> [left; right] <;> simp [h]
    rw [ih (i + 1) (total + t) f (fun h => absurd h (Nat.succ_ne_zero i))
      (fun j hj => by
        have := hpres (j + 1) (by simpa using Nat.succ_lt_succ hj)
        simpa [Nat.add_assoc, Nat.add_comm 1 j] using this)
      (fun j hj => by
        have := hfull (j + 1) (by simpa using Nat.succ_lt_succ hj)
        simpa using this)
      (by
        have : i + 1 + rest.length = i + (t :: rest).length := by simp; omega
        rw [this]
        exact habs)
      (by simp only [List.length_cons] at hfuel ⊢; omega)]
    have hnat : total + t + rest.sum = total + (t :: rest).sum := by
      simp only [List.sum_cons]
      omega
    rw [hnat]

/-- C5: with capacity zero, `chain_getxattr` delegates to the length-only
probe; the probe returns the primitive's chunk-0 result verbatim when chunk
0 is absent; otherwise it returns the sum of the chunk lengths up to and
including the first chunk whose length differs from both block-size
constants, and a later-index primitive failure also ends the sum without
surfacing as an error. -/
theorem getxattr_len_behavior :
    (∀ (st : Store) (name : List Char),
      chain_getxattr st name 0 = (getxattr_len st name, [])) ∧
    (∀ (st : Store) (name : List Char),
      find st (get_raw_xattr_name name 0) = none →
      getxattr_len st name = (sys_getxattr st (get_raw_xattr_name name 0) 0).1) ∧
    (∀ (st : Store) (name : List Char) (ts : List Nat),
      ts ≠ [] →
      (∀ j < ts.length, chunkLen st name j = some (ts.getD j 0)) →
      (∀ j, j + 1 < ts.length →
        (ts.getD j 0 = CHAIN_XATTR_MAX_BLOCK_LEN ∨ ts.getD j 0 = CHAIN_XATTR_SHORT_BLOCK_LEN)) →
      ¬(ts.getD (ts.length - 1) 0 = CHAIN_XATTR_MAX_BLOCK_LEN ∨
        ts.getD (ts.length - 1) 0 = CHAIN_XATTR_SHORT_BLOCK_LEN) →
      getxattr_len st name = (ts.sum : Int)) ∧
    (∀ (st : Store) (name : List Char) (ts : List Nat),
      ts ≠ [] →
      (∀ j < ts.length, chunkLen st name j = some (ts.getD j 0)) →
      (∀ j < ts.length,
        (ts.getD j 0 = CHAIN_XATTR_MAX_BLOCK_LEN ∨ ts.getD j 0 = CHAIN_XATTR_SHORT_BLOCK_LEN)) →
      find st (get_raw_xattr_name name ts.length) = none →
      getxattr_len st name = (ts.sum : Int)) := by
  refine ⟨fun st name => by simp [chain_getxattr], ?_, ?_, ?_⟩
  · intro st name h
    rw [sys_getxattr_absent st _ 0 h]
    unfold getxattr_len getxattr_len_go
    rw [sys_getxattr_absent st _ 0 h]
    rw [if_pos ⟨rfl, by decide⟩]
  · intro st name ts hne hpres hfull hlast
    have hpig : ts.length ≤ st.length := by
      apply present_indices_le st name
      intro j hj
      rcases chunkLen_find st name j _ (hpres j hj) with ⟨v, hv, _⟩
      simp [hv]
    unfold getxattr_len
    rw [getxattr_len_go_run_A st name ts 0 0 (st.length + 1) hne
      (fun j hj => by simpa using hpres j hj) hfull hlast (by omega)]
    simp
  · intro st name ts hne hpres hfull habs
    have hpig : ts.length ≤ st.length := by
      apply present_indices_le st name
      intro j hj
      rcases chunkLen_find st name j _ (hpres j hj) with ⟨v, hv, _⟩
      simp [hv]
    unfold getxattr_len
    rw [getxattr_len_go_run_B st name ts 0 0 (st.length + 1) (fun _ => hne)
      (fun j hj => by simpa using hpres j hj) hfull (by simpa using habs) (by omega)]
    simp

theorem getxattr_len_behavior_witness :
    ([1] : List Nat) ≠ [] ∧
    getxattr_len [(['x'], [7])] ['x'] = ((([1] : List Nat).sum : Nat) : Int) :=
  ⟨by decide,
    getxattr_len_behavior.2.2.1 [(['x'], [7])] ['x'] [1] (by decide)
      (by decide) (fun j hj => absurd hj (by simp)) (by decide)⟩

theorem getxattr_len_absent0 (st : Store) (name : List Char)
    (h : find st (get_raw_xattr_name name 0) = none) :
    getxattr_len st name = -ENODATA := by
  unfold getxattr_len getxattr_len_go
  rw [sys_getxattr_absent st _ 0 h]
  rw [if_pos ⟨rfl, by decide⟩]

/-- Run of the removal loop from an index at least 1: all present indices up
to the chain length are removed, any failure there ends with success 0, and
an already-removed chunk 0 stays removed. -/
theorem chain_removexattr_go_run (name : List Char) (len : Nat) :
    ∀ (d i : Nat) (s : Store) (fuel : Nat),
    i + d = len →
    1 ≤ i →
    (∀ j, i ≤ j → j < len → ∃ v, find s (get_raw_xattr_name name j) = some v) →
    find s (get_raw_xattr_name name len) = none →
    find s (get_raw_xattr_name name 0) = none →
    d + 1 ≤ fuel →
    ∃ s2, chain_removexattr_go name fuel i s = (0, s2) ∧
      find s2 (get_raw_xattr_name name 0) = none := by
  intro d
  induction d with
  | zero =>
    intro i s fuel hd hi hpres habs h0 hfuel
    obtain ⟨f, rfl⟩ : ∃ f, fuel = f + 1 := by
      cases fuel with
      | zero => simp at hfuel
      | succ f => exact ⟨f, rfl⟩
    have hil : i = len := by omega
    subst hil
    unfold chain_removexattr_go
    rw [show sys_removexattr s (get_raw_xattr_name name i) = (-ENODATA, s) by
      simp [sys_removexattr, habs]]
    rw [if_neg (by intro hc; omega)]
    rw [if_neg (by norm_num [ENODATA])]
    exact ⟨s, rfl, h0⟩
  | succ d ih =>
    intro i s fuel hd hi hpres habs h0 hfuel
    obtain ⟨f, rfl⟩ : ∃ f, fuel = f + 1 := by
      cases fuel with
      | zero => simp at hfuel
      | succ f => exact ⟨f, rfl⟩
    have hilt : i < len := by omega
    obtain ⟨v, hv⟩ := hpres i (Nat.le_refl i) hilt
    unfold chain_removexattr_go
    rw [show sys_removexattr s (get_raw_xattr_name name i) =
        (0, s.filter (fun kv => kv.1 ≠ get_raw_xattr_name name i)) by
      simp [sys_removexattr, hv]]
    rw [if_neg (by intro hc; exact absurd hc.2 (by norm_num))]
    rw [if_pos (by norm_num)]
    apply ih (i + 1) _ f (by omega) (by omega)
    · intro j hj1 hj2
      obtain ⟨w, hw⟩ := hpres j (by omega) hj2
      refine ⟨w, ?_⟩
      rw [find_filter_ne]
      rw [if_neg (fun he => by have := get_raw_xattr_name_inj name he; omega)]
      exact hw
    · rw [find_filter_ne]
      rw [if_neg (fun he => by have := get_raw_xattr_name_inj name he; omega)]
      exact habs
    · rw [find_filter_ne]
      rw [if_neg (fun he => by have := get_raw_xattr_name_inj name he; omega)]
      exact h0
    · omega

/-- C6: chain removal propagates a chunk-0 failure verbatim (removing a
nonexistent logical name yields -ENODATA), any failure at a later index ends
the ascending-index loop with result 0, and after a successful removal of an
existing chain a subsequent length probe on the same name yields
-ENODATA. -/
theorem chain_removexattr_behavior :
    (∀ (st : Store) (name : List Char),
      find st (get_raw_xattr_name name 0) = none →
      chain_removexattr st name = (-ENODATA, st) ∧
      chain_fremovexattr st name = (-ENODATA, st)) ∧
    (∀ (st : Store) (name : List Char) (B : Nat) (chunks : List (List Nat)),
      StoredChain st name B chunks →
      ∃ st2, chain_removexattr st name = (0, st2) ∧
        chain_fremovexattr st name = (0, st2) ∧
        getxattr_len st2 name = -ENODATA ∧
        chain_fgetxattr_len st2 name = -ENODATA) := by
  constructor
  · intro st name h
    have : chain_removexattr st name = (-ENODATA, st) := by
      unfold chain_removexattr chain_removexattr_go
      rw [show sys_removexattr st (get_raw_xattr_name name 0) = (-ENODATA, st) by
        simp [sys_removexattr, h]]
      rw [if_pos ⟨rfl, by norm_num [ENODATA]⟩]
    exact ⟨this, this⟩
  · intro st name B chunks hch
    have hlen1 : 1 ≤ chunks.length := by
      cases h : chunks with
      | nil => exact absurd h hch.nonempty
      | cons a l => simp [h]
    have hv0 := hch.found 0 (by omega)
    have hpig : chunks.length ≤ st.length := by
      apply present_indices_le st name
      intro j hj
      simp [hch.found j hj]
    obtain ⟨s2, hs2, h02⟩ := chain_removexattr_go_run name chunks.length
      (chunks.length - 1) 1
      (st.filter (fun kv => kv.1 ≠ get_raw_xattr_name name 0)) st.length
      (by omega) (by omega)
      (fun j hj1 hj2 => by
        refine ⟨chunks.getD j [], ?_⟩
        rw [find_filter_ne]
        rw [if_neg (fun he => by have := get_raw_xattr_name_inj name he; omega)]
        exact hch.found j hj2)
      (by
        rw [find_filter_ne]
        rw [if_neg (fun he => by have := get_raw_xattr_name_inj name he; omega)]
        exact hch.absent)
      (by
        rw [find_filter_ne]
        rw [if_pos rfl])
      (by omega)
    have hmain : chain_removexattr st name = (0, s2) := by
      unfold chain_removexattr chain_removexattr_go
      rw [show sys_removexattr st (get_raw_xattr_name name 0) =
          (0, st.filter (fun kv => kv.1 ≠ get_raw_xattr_name name 0)) by
        simp [sys_removexattr, hv0]]
      rw [if_neg (by intro hc; exact absurd hc.2 (by norm_num))]
      rw [if_pos (by norm_num)]
      exact hs2
    exact ⟨s2, hmain, hmain, getxattr_len_absent0 s2 name h02, getxattr_len_absent0 s2 name h02⟩

theorem chain_removexattr_behavior_witness :
    StoredChain [(['x'], [7])] ['x'] CHAIN_XATTR_SHORT_BLOCK_LEN [[7]] ∧
    ∃ st2, chain_removexattr [(['x'], [7])] ['x'] = (0, st2) ∧
      chain_fremovexattr [(['x'], [7])] ['x'] = (0, st2) ∧
      getxattr_len st2 ['x'] = -ENODATA ∧
      chain_fgetxattr_len st2 ['x'] = -ENODATA := by
  have hch : StoredChain [(['x'], [7])] ['x'] CHAIN_XATTR_SHORT_BLOCK_LEN [[7]] :=
    ⟨Or.inl rfl, by decide, fun j hj => absurd hj (by simp), by decide,
      by decide, by decide⟩
  exact ⟨hch, chain_removexattr_behavior.2 [(['x'], [7])] ['x']
    CHAIN_XATTR_SHORT_BLOCK_LEN [[7]] hch⟩

theorem sumTo_append (l ext : List (List Nat)) :
    ∀ n, n ≤ l.length → sumTo (l ++ ext) n = sumTo l n := by
  intro n
  induction n with
  | zero => intro _; rfl
  | succ n ih =>
    intro h
    unfold sumTo
    rw [ih (by omega), List.getD_append l ext [] n (by omega)]

theorem joinTo_append (l ext : List (List Nat)) :
    ∀ n, n ≤ l.length → joinTo (l ++ ext) n = joinTo l n := by
  intro n
  induction n with
  | zero => intro _; rfl
  | succ n ih =>
    intro h
    unfold joinTo
    rw [ih (by omega), List.getD_append l ext [] n (by omega)]

theorem sumTo_length (chunks : List (List Nat)) :
    sumTo chunks chunks.length = (chunks.map List.length).sum := by
  induction chunks using List.reverseRecOn with
  | nil => rfl
  | append_singleton l x ih =>
    rw [show (l ++ [x]).length = l.length + 1 by simp]
    unfold sumTo
    rw [sumTo_append l [x] l.length (Nat.le_refl _), ih,
      List.getD_append_right l [x] [] l.length (Nat.le_refl _)]
    simp

theorem joinTo_length (chunks : List (List Nat)) :
    joinTo chunks chunks.length = chunks.join := by
  induction chunks using List.reverseRecOn with
  | nil => rfl
  | append_singleton l x ih =>
    rw [show (l ++ [x]).length = l.length + 1 by simp]
    unfold joinTo
    rw [joinTo_append l [x] l.length (Nat.le_refl _), ih,
      List.getD_append_right l [x] [] l.length (Nat.le_refl _)]
    simp

theorem sumTo_mono (chunks : List (List Nat)) (i : Nat) :
    ∀ j, i ≤ j → sumTo chunks i ≤ sumTo chunks j := by
  intro j
  induction j with
  | zero => intro h; rw [Nat.le_zero.1 h]
  | succ j ih =>
    intro h
    by_cases hij : i = j + 1
    · rw [hij]
    · have h2 := ih (by omega)
      have h3 : sumTo chunks (j + 1) = sumTo chunks j + (chunks.getD j []).length := rfl
      omega

theorem StoredChain.block_ge (st : Store) (name : List Char) (B : Nat)
    (chunks : List (List Nat)) (hch : StoredChain st name B chunks) :
    CHAIN_XATTR_SHORT_BLOCK_LEN ≤ B := by
  rcases hch.bsize with h | h <;> rw [h] <;> decide

theorem StoredChain.len_pos (st : Store) (name : List Char) (B : Nat)
    (chunks : List (List Nat)) (hch : StoredChain st name B chunks) :
    1 ≤ chunks.length := by
  cases h : chunks with
  | nil => exact absurd h hch.nonempty
  | cons a l => simp [h]

theorem StoredChain.chunk_le (st : Store) (name : List Char) (B : Nat)
    (chunks : List (List Nat)) (hch : StoredChain st name B chunks) :
    ∀ j < chunks.length, (chunks.getD j []).length ≤ B := by
  intro j hj
  by_cases hl : j + 1 < chunks.length
  · rw [hch.full j (by omega)]
  · have : j = chunks.length - 1 := by omega
    rw [this]
    exact hch.last_le

theorem chain_getxattr_go_step_continue (st : Store) (name : List Char)
    (f i pos size : Nat) (acc v : List Nat)
    (hv : find st (get_raw_xattr_name name i) = some v)
    (hsz : size ≠ 0) (hle : v.length ≤ size) (hrem : size - v.length ≠ 0)
    (hconst : v.length = CHAIN_XATTR_MAX_BLOCK_LEN ∨ v.length = CHAIN_XATTR_SHORT_BLOCK_LEN) :
    chain_getxattr_go st name (f + 1) i pos acc size =
      chain_getxattr_go st name f (i + 1) (pos + v.length) (acc ++ v) (size - v.length) := by
  have hsys := sys_getxattr_found st _ v size hv hsz hle
  conv_lhs => unfold chain_getxattr_go
  rw [hsys]
  simp only []
  rw [if_neg (by
    intro hc
    have h2 := hc.2
    simp [ENODATA] at h2)]
  rw [if_neg (by simp)]
  simp only [Int.toNat_natCast]
  have hcint : ((v.length : Int) = (CHAIN_XATTR_MAX_BLOCK_LEN : Int) ∨
      (v.length : Int) = (CHAIN_XATTR_SHORT_BLOCK_LEN : Int)) := by
    rcases hconst with h | h
    · exact Or.inl (by exact_mod_cast h)
    · exact Or.inr (by exact_mod_cast h)
  rw [if_pos ⟨hrem, hcint⟩]

theorem chain_getxattr_go_step_exit (st : Store) (name : List Char)
    (f i pos size : Nat) (acc v : List Nat)
    (hv : find st (get_raw_xattr_name name i) = some v)
    (hsz : size ≠ 0) (hle : v.length ≤ size)
    (hstop : ¬(size - v.length ≠ 0 ∧
      (v.length = CHAIN_XATTR_MAX_BLOCK_LEN ∨ v.length = CHAIN_XATTR_SHORT_BLOCK_LEN))) :
    chain_getxattr_go st name (f + 1) i pos acc size =
      (if size = CHAIN_XATTR_MAX_BLOCK_LEN ∨ size = CHAIN_XATTR_SHORT_BLOCK_LEN then
        if (sys_getxattr st (get_raw_xattr_name name (i + 1)) 0).1 > 0 then (-ERANGE, acc ++ v)
        else (((pos + v.length : Nat) : Int), acc ++ v)
      else (((pos + v.length : Nat) : Int), acc ++ v)) := by
  have hsys := sys_getxattr_found st _ v size hv hsz hle
  conv_lhs => unfold chain_getxattr_go
  rw [hsys]
  simp only []
  rw [if_neg (by
    intro hc
    have h2 := hc.2
    simp [ENODATA] at h2)]
  rw [if_neg (by simp)]
  simp only [Int.toNat_natCast]
  have hcint : ¬(size - v.length ≠ 0 ∧ ((v.length : Int) = (CHAIN_XATTR_MAX_BLOCK_LEN : Int) ∨
      (v.length : Int) = (CHAIN_XATTR_SHORT_BLOCK_LEN : Int))) := by
    intro hc
    apply hstop
    refine ⟨hc.1, ?_⟩
    rcases hc.2 with h | h
    · exact Or.inl (by exact_mod_cast h)
    · exact Or.inr (by exact_mod_cast h)
  rw [if_neg hcint]

theorem chain_getxattr_go_step_enodata (st : Store) (name : List Char)
    (f i pos size : Nat) (acc : List Nat)
    (hv : find st (get_raw_xattr_name name i) = none) (hi : i ≠ 0) :
    chain_getxattr_go st name (f + 1) i pos acc size = ((pos : Int), acc) := by
  have hsys := sys_getxattr_absent st (get_raw_xattr_name name i) size hv
  conv_lhs => unfold chain_getxattr_go
  rw [hsys]
  simp only []
  rw [if_pos ⟨hi, by norm_num⟩]

/-- Run of the bounded-read loop over a stored chain when the capacity is at
least the total length: starting inside the chain with the invariant
amounts read, the loop accumulates every remaining chunk and returns the
total length with the full concatenation. -/
theorem chain_getxattr_go_run_cap (st : Store) (name : List Char) (B : Nat)
    (chunks : List (List Nat)) (hch : StoredChain st name B chunks) (c : Nat)
    (hcap : sumTo chunks chunks.length ≤ c) :
    ∀ (d i fuel : Nat),
    i + d + 1 = chunks.length →
    c - sumTo chunks i ≠ 0 →
    chunks.length - i + 1 ≤ fuel →
    chain_getxattr_go st name fuel i (sumTo chunks i) (joinTo chunks i) (c - sumTo chunks i) =
      ((sumTo chunks chunks.length : Int), joinTo chunks chunks.length) := by
  intro d
  induction d with
  | zero =>
    intro i fuel hd hne hfuel
    obtain ⟨f, rfl⟩ : ∃ f, fuel = f + 1 := by
      cases fuel with
      | zero => simp at hfuel
      | succ f => exact ⟨f, rfl⟩
    have hvi : find st (get_raw_xattr_name name i) = some (chunks.getD i []) :=
      hch.found i (by omega)
    have hsum_succ : sumTo chunks (i + 1) = sumTo chunks i + (chunks.getD i []).length := rfl
    have hmono : sumTo chunks (i + 1) ≤ sumTo chunks chunks.length :=
      sumTo_mono chunks (i + 1) chunks.length (by omega)
    have hle : (chunks.getD i []).length ≤ c - sumTo chunks i := by omega
    have hlen : i + 1 = chunks.length := by omega
    have hsum_top : sumTo chunks i + (chunks.getD i []).length = sumTo chunks chunks.length := by
      rw [← hsum_succ, hlen]
    have hjoin_top : joinTo chunks i ++ chunks.getD i [] = joinTo chunks chunks.length := by
      rw [show joinTo chunks i ++ chunks.getD i [] = joinTo chunks (i + 1) from rfl, hlen]
    by_cases hg : (c - sumTo chunks i) - (chunks.getD i []).length ≠ 0 ∧
        ((chunks.getD i []).length = CHAIN_XATTR_MAX_BLOCK_LEN ∨
         (chunks.getD i []).length = CHAIN_XATTR_SHORT_BLOCK_LEN)
    · rw [chain_getxattr_go_step_continue st name f i (sumTo chunks i) (c - sumTo chunks i)
        (joinTo chunks i) (chunks.getD i []) hvi hne hle hg.1 hg.2]
      obtain ⟨f2, rfl⟩ : ∃ f2, f = f2 + 1 := by
        cases f with
        | zero => omega
        | succ f2 => exact ⟨f2, rfl⟩
      rw [chain_getxattr_go_step_enodata st name f2 (i + 1)
        (sumTo chunks i + (chunks.getD i []).length) ((c - sumTo chunks i) - (chunks.getD i []).length)
        (joinTo chunks i ++ chunks.getD i [])
        (by rw [hlen]; exact hch.absent) (by omega)]
      rw [hsum_top, hjoin_top]
    · rw [chain_getxattr_go_step_exit st name f i (sumTo chunks i) (c - sumTo chunks i)
        (joinTo chunks i) (chunks.getD i []) hvi hne hle hg]
      have hprobe : (sys_getxattr st (get_raw_xattr_name name (i + 1)) 0).1 = -ENODATA := by
        rw [sys_getxattr_absent st _ 0 (by rw [hlen]; exact hch.absent)]
      rw [hprobe]
      by_cases hcs : c - sumTo chunks i = CHAIN_XATTR_MAX_BLOCK_LEN ∨
          c - sumTo chunks i = CHAIN_XATTR_SHORT_BLOCK_LEN
      · rw [if_pos hcs]
        rw [if_neg (show ¬(-ENODATA > 0) by norm_num [ENODATA])]
        rw [hsum_top, hjoin_top]
      · rw [if_neg hcs]
        rw [hsum_top, hjoin_top]
  | succ d ih =>
    intro i fuel hd hne hfuel
    obtain ⟨f, rfl⟩ : ∃ f, fuel = f + 1 := by
      cases fuel with
      | zero => simp at hfuel
      | succ f => exact ⟨f, rfl⟩
    have hvi : find st (get_raw_xattr_name name i) = some (chunks.getD i []) :=
      hch.found i (by omega)
    have hfulli : (chunks.getD i []).length = B := hch.full i (by omega)
    have hB : 256 ≤ B := StoredChain.block_ge st name B chunks hch
    have hsum_succ : sumTo chunks (i + 1) = sumTo chunks i + (chunks.getD i []).length := rfl
    have hmono : sumTo chunks (i + 1) ≤ sumTo chunks chunks.length :=
      sumTo_mono chunks (i + 1) chunks.length (by omega)
    have hle : (chunks.getD i []).length ≤ c - sumTo chunks i := by omega
    have hconst : (chunks.getD i []).length = CHAIN_XATTR_MAX_BLOCK_LEN ∨
        (chunks.getD i []).length = CHAIN_XATTR_SHORT_BLOCK_LEN := by
      rcases hch.bsize with h | h
      · exact Or.inr (by rw [hfulli, h])
      · exact Or.inl (by rw [hfulli, h])
    by_cases hrem : c - sumTo chunks (i + 1) ≠ 0
    · rw [chain_getxattr_go_step_continue st name f i (sumTo chunks i) (c - sumTo chunks i)
        (joinTo chunks i) (chunks.getD i []) hvi hne hle (by omega) hconst]
      rw [show c - sumTo chunks i - (chunks.getD i []).length = c - sumTo chunks (i + 1) by omega]
      rw [show sumTo chunks i + (chunks.getD i []).length = sumTo chunks (i + 1) from rfl]
      rw [show joinTo chunks i ++ chunks.getD i [] = joinTo chunks (i + 1) from rfl]
      exact ih (i + 1) f (by omega) hrem (by omega)
    · have hc_eq : c = sumTo chunks (i + 1) := by omega
      have hd2 : d = 0 := by
        by_contra hd0
        have hfull1 : (chunks.getD (i + 1) []).length = B := hch.full (i + 1) (by omega)
        have hmono2 : sumTo chunks (i + 2) ≤ sumTo chunks chunks.length :=
          sumTo_mono chunks (i + 2) chunks.length (by omega)
        have hsum_succ2 : sumTo chunks (i + 2) = sumTo chunks (i + 1) + (chunks.getD (i + 1) []).length := rfl
        omega
      have hlen2 : i + 2 = chunks.length := by omega
      have hl1 : (chunks.getD (i + 1) []).length = 0 := by
        have hsum_succ2 : sumTo chunks (i + 2) = sumTo chunks (i + 1) + (chunks.getD (i + 1) []).length := rfl
        have hmono2 : sumTo chunks (i + 2) ≤ sumTo chunks chunks.length :=
          sumTo_mono chunks (i + 2) chunks.length (by omega)
        omega
      have hstop : ¬((c - sumTo chunks i) - (chunks.getD i []).length ≠ 0 ∧
          ((chunks.getD i []).length = CHAIN_XATTR_MAX_BLOCK_LEN ∨
           (chunks.getD i []).length = CHAIN_XATTR_SHORT_BLOCK_LEN)) := by
        intro hc2
        exact hc2.1 (by omega)
      rw [chain_getxattr_go_step_exit st name f i (sumTo chunks i) (c - sumTo chunks i)
        (joinTo chunks i) (chunks.getD i []) hvi hne hle hstop]
      have hv1 : find st (get_raw_xattr_name name (i + 1)) = some (chunks.getD (i + 1) []) :=
        hch.found (i + 1) (by omega)
      have hprobe : (sys_getxattr st (get_raw_xattr_name name (i + 1)) 0).1 =
          (((chunks.getD (i + 1) []).length : Nat) : Int) := by
        rw [sys_getxattr_len_found st _ _ hv1]
      rw [hprobe, hl1]
      have hsize_eq : c - sumTo chunks i = (chunks.getD i []).length := by omega
      rw [if_pos (by rw [hsize_eq]; exact hconst)]
      rw [if_neg (show ¬(((0 : Nat) : Int) > 0) by norm_num)]
      have hsum_top : sumTo chunks i + (chunks.getD i []).length = sumTo chunks chunks.length := by
        have hsum_succ2 : sumTo chunks (i + 2) = sumTo chunks (i + 1) + (chunks.getD (i + 1) []).length := rfl
        rw [← hlen2]
        omega
      have hjoin_top : joinTo chunks i ++ chunks.getD i [] = joinTo chunks chunks.length := by
        rw [← hlen2]
        rw [show joinTo chunks (i + 2) = joinTo chunks (i + 1) ++ chunks.getD (i + 1) [] from rfl]
        rw [List.length_eq_zero.1 hl1]
        rw [show joinTo chunks (i + 1) = joinTo chunks i ++ chunks.getD i [] from rfl]
        simp
      rw [hsum_top, hjoin_top]

theorem sumTo_full (st : Store) (name : List Char) (B : Nat) (chunks : List (List Nat))
    (hch : StoredChain st name B chunks) :
    ∀ j, j ≤ chunks.length - 1 → sumTo chunks j = j * B := by
  intro j
  induction j with
  | zero => intro _; simp [sumTo]
  | succ j ih =>
    intro h
    have h1 : sumTo chunks (j + 1) = sumTo chunks j + (chunks.getD j []).length := rfl
    have h2 : (chunks.getD j []).length = B := hch.full j (by omega)
    rw [h1, ih (by omega), h2]
    ring

theorem sumTo_le_mul (st : Store) (name : List Char) (B : Nat) (chunks : List (List Nat))
    (hch : StoredChain st name B chunks) :
    ∀ j ≤ chunks.length, sumTo chunks j ≤ j * B := by
  intro j
  induction j with
  | zero => intro _; simp [sumTo]
  | succ j ih =>
    intro h
    have h1 : sumTo chunks (j + 1) = sumTo chunks j + (chunks.getD j []).length := rfl
    have h2 : (chunks.getD j []).length ≤ B :=
      StoredChain.chunk_le st name B chunks hch j (by omega)
    have h3 := ih (by omega)
    rw [h1]
    calc sumTo chunks j + (chunks.getD j []).length ≤ j * B + B := by omega
      _ = (j + 1) * B := by ring

/-- C2: reading a stored chain with capacity at least its positive total
length returns exactly the total length, and the bytes written are the
concatenation of the chunks in ascending index order, whether or not the
capacity is aligned to a block-size boundary; the descriptor-addressed
variant behaves identically. -/
theorem chain_getxattr_capacity_ge_length (st : Store) (name : List Char) (B : Nat)
    (chunks : List (List Nat)) (c : Nat)
    (hch : StoredChain st name B chunks)
    (hpos : 0 < (chunks.map List.length).sum)
    (hcap : (chunks.map List.length).sum ≤ c) :
    chain_getxattr st name c = (((chunks.map List.length).sum : Int), chunks.join) ∧
    chain_fgetxattr st name c = (((chunks.map List.length).sum : Int), chunks.join) := by
  have hsum := sumTo_length chunks
  have hjoin := joinTo_length chunks
  have hc0 : ¬c = 0 := by omega
  have hlen1 : 1 ≤ chunks.length := StoredChain.len_pos st name B chunks hch
  have hB : 256 ≤ B := StoredChain.block_ge st name B chunks hch
  have hlen_le : chunks.length ≤ c := by
    rcases Nat.lt_or_ge chunks.length 2 with h2 | h2
    · omega
    · have hf := sumTo_full st name B chunks hch (chunks.length - 1) (Nat.le_refl _)
      have hm := sumTo_mono chunks (chunks.length - 1) chunks.length (by omega)
      have hmul : (chunks.length - 1) * 256 ≤ (chunks.length - 1) * B :=
        Nat.mul_le_mul_left _ hB
      omega
  have hrun := chain_getxattr_go_run_cap st name B chunks hch c (by omega)
    (chunks.length - 1) 0 (c + 1) (by omega)
    (by simpa [sumTo] using hc0) (by omega)
  have hmain : chain_getxattr st name c =
      (((chunks.map List.length).sum : Int), chunks.join) := by
    unfold chain_getxattr
    rw [if_neg hc0]
    rw [← hsum, ← hjoin]
    simpa [sumTo, joinTo] using hrun
  exact ⟨hmain, hmain⟩

theorem chain_getxattr_capacity_ge_length_witness :
    StoredChain [(['x'], [7])] ['x'] CHAIN_XATTR_SHORT_BLOCK_LEN [[7]] ∧
    chain_getxattr [(['x'], [7])] ['x'] 5 = ((([[7]].map List.length).sum : Int), [[7]].join) := by
  have hch : StoredChain [(['x'], [7])] ['x'] CHAIN_XATTR_SHORT_BLOCK_LEN [[7]] :=
    ⟨Or.inl rfl, by decide, fun j hj => absurd hj (by simp), by decide,
      by decide, by decide⟩
  exact ⟨hch, (chain_getxattr_capacity_ge_length [(['x'], [7])] ['x']
    CHAIN_XATTR_SHORT_BLOCK_LEN [[7]] 5 hch (by decide) (by decide)).1⟩

/-- Run of the bounded-read loop on a stored chain when the capacity is a
whole number of blocks but strictly less than the total length: the loop
exhausts the capacity exactly at a block boundary, the post-loop zero-length
probe at the next index reports a positive length, and the result is
-ERANGE. -/
theorem chain_getxattr_go_run_boundary (st : Store) (name : List Char) (B : Nat)
    (chunks : List (List Nat)) (hch : StoredChain st name B chunks) (m : Nat)
    (hmlt : m < chunks.length)
    (hlt : m * B < sumTo chunks chunks.length) :
    ∀ (d i fuel pos : Nat) (acc : List Nat),
    i + d + 1 = m →
    d + 1 ≤ fuel →
    (chain_getxattr_go st name fuel i pos acc ((m - i) * B)).1 = -ERANGE := by
  have hB : 256 ≤ B := StoredChain.block_ge st name B chunks hch
  have hlen1 : 1 ≤ chunks.length := StoredChain.len_pos st name B chunks hch
  intro d
  induction d with
  | zero =>
    intro i fuel pos acc hd hfuel
    obtain ⟨f, rfl⟩ : ∃ f, fuel = f + 1 := by
      cases fuel with
      | zero => simp at hfuel
      | succ f => exact ⟨f, rfl⟩
    have hi : i + 1 = m := by omega
    have hfulli : (chunks.getD i []).length = B := hch.full i (by omega)
    have hvi : find st (get_raw_xattr_name name i) = some (chunks.getD i []) :=
      hch.found i (by omega)
    have hsize : (m - i) * B = B := by
      rw [show m - i = 1 by omega, one_mul]
    rw [hsize]
    have hstop : ¬(B - (chunks.getD i []).length ≠ 0 ∧
        ((chunks.getD i []).length = CHAIN_XATTR_MAX_BLOCK_LEN ∨
         (chunks.getD i []).length = CHAIN_XATTR_SHORT_BLOCK_LEN)) := by
      intro hc
      exact hc.1 (by omega)
    rw [chain_getxattr_go_step_exit st name f i pos B acc (chunks.getD i []) hvi
      (by omega) (by omega) hstop]
    have hconstB : B = CHAIN_XATTR_MAX_BLOCK_LEN ∨ B = CHAIN_XATTR_SHORT_BLOCK_LEN := by
      rcases hch.bsize with h | h
      · exact Or.inr h
      · exact Or.inl h
    rw [if_pos hconstB]
    have hvm : find st (get_raw_xattr_name name (i + 1)) = some (chunks.getD (i + 1) []) := by
      rw [hi]
      exact hch.found m hmlt
    have hprobe : (sys_getxattr st (get_raw_xattr_name name (i + 1)) 0).1 =
        ((chunks.getD (i + 1) []).length : Int) := by
      rw [sys_getxattr_len_found st _ _ hvm]
    have hposlen : 0 < (chunks.getD (i + 1) []).length := by
      rcases Nat.lt_or_ge m (chunks.length - 1) with hcase | hcase
      · have := hch.full (i + 1) (by omega)
        omega
      · have hmeq : m = chunks.length - 1 := by omega
        have hlt2 := hlt
        rw [hmeq] at hlt2
        have hf := sumTo_full st name B chunks hch (chunks.length - 1) (Nat.le_refl _)
        have hsucc : sumTo chunks ((chunks.length - 1) + 1) =
            sumTo chunks (chunks.length - 1) + (chunks.getD (chunks.length - 1) []).length := rfl
        have hlen_eq : (chunks.length - 1) + 1 = chunks.length := by omega
        rw [hlen_eq] at hsucc
        have hieq : i + 1 = chunks.length - 1 := by omega
        rw [hieq]
        omega
    rw [hprobe]
    rw [if_pos (by exact_mod_cast hposlen)]
  | succ d ih =>
    intro i fuel pos acc hd hfuel
    obtain ⟨f, rfl⟩ : ∃ f, fuel = f + 1 := by
      cases fuel with
      | zero => simp at hfuel
      | succ f => exact ⟨f, rfl⟩
    have hfulli : (chunks.getD i []).length = B := hch.full i (by omega)
    have hvi : find st (get_raw_xattr_name name i) = some (chunks.getD i []) :=
      hch.found i (by omega)
    have hmi2 : 2 ≤ m - i := by omega
    have hsz : (m - i) * B ≠ 0 := by
      have : 2 * 256 ≤ (m - i) * B := Nat.mul_le_mul hmi2 hB
      omega
    have hle : (chunks.getD i []).length ≤ (m - i) * B := by
      have : 1 * B ≤ (m - i) * B := Nat.mul_le_mul (by omega) (Nat.le_refl B)
      omega
    have hrem : (m - i) * B - (chunks.getD i []).length ≠ 0 := by
      have h2 : 2 * B ≤ (m - i) * B := Nat.mul_le_mul hmi2 (Nat.le_refl B)
      omega
    have hconst : (chunks.getD i []).length = CHAIN_XATTR_MAX_BLOCK_LEN ∨
        (chunks.getD i []).length = CHAIN_XATTR_SHORT_BLOCK_LEN := by
      rcases hch.bsize with h | h
      · exact Or.inr (by rw [hfulli, h])
      · exact Or.inl (by rw [hfulli, h])
    rw [chain_getxattr_go_step_continue st name f i pos ((m - i) * B) acc
      (chunks.getD i []) hvi hsz hle hrem hconst]
    have hszeq : (m - i) * B - (chunks.getD i []).length = (m - (i + 1)) * B := by
      have h3 : m - i = (m - (i + 1)) + 1 := by omega
      rw [hfulli, h3, Nat.add_mul, one_mul, Nat.add_sub_cancel]
    rw [hszeq]
    exact ih (i + 1) f (pos + (chunks.getD i []).length) (acc ++ chunks.getD i [])
      (by omega) (by omega)

/-- C1: when the caller's capacity is a whole positive number of blocks but
strictly less than the chain's true total length, the bounded read exhausts
the capacity exactly at a block-sized chunk, probes the next chunk index,
finds a positive length there, and returns -ERANGE rather than the partial
byte count; the descriptor-addressed variant behaves identically. -/
theorem chain_getxattr_boundary_buffer_too_small (st : Store) (name : List Char)
    (B : Nat) (chunks : List (List Nat)) (m : Nat)
    (hch : StoredChain st name B chunks)
    (hm : 0 < m)
    (hlt : m * B < (chunks.map List.length).sum) :
    (chain_getxattr st name (m * B)).1 = -ERANGE ∧
    (chain_fgetxattr st name (m * B)).1 = -ERANGE := by
  have hsum := sumTo_length chunks
  have hB : 256 ≤ B := StoredChain.block_ge st name B chunks hch
  have hlen1 : 1 ≤ chunks.length := StoredChain.len_pos st name B chunks hch
  have hmlt : m < chunks.length := by
    by_contra hge
    have hlc : chunks.length ≤ m := by omega
    have h1 := sumTo_le_mul st name B chunks hch chunks.length (Nat.le_refl _)
    have h2 : chunks.length * B ≤ m * B := Nat.mul_le_mul hlc (Nat.le_refl B)
    omega
  have hc0 : ¬m * B = 0 := by
    have : 1 * 256 ≤ m * B := Nat.mul_le_mul hm hB
    omega
  have hrun := chain_getxattr_go_run_boundary st name B chunks hch m hmlt (by omega)
    (m - 1) 0 (m * B + 1) 0 [] (by omega)
    (by
      have : m * 1 ≤ m * B := Nat.mul_le_mul (Nat.le_refl m) (by omega)
      omega)
  have hmain : (chain_getxattr st name (m * B)).1 = -ERANGE := by
    unfold chain_getxattr
    rw [if_neg hc0]
    rw [show m - 0 = m from rfl] at hrun
    exact hrun
  exact ⟨hmain, hmain⟩

set_option maxRecDepth 10000 in
theorem chain_getxattr_boundary_buffer_too_small_witness :
    StoredChain [(['a'], List.replicate 256 9), (['a', '@', '1'], [1])] ['a']
      CHAIN_XATTR_SHORT_BLOCK_LEN [List.replicate 256 9, [1]] ∧
    (chain_getxattr [(['a'], List.replicate 256 9), (['a', '@', '1'], [1])] ['a']
      (1 * CHAIN_XATTR_SHORT_BLOCK_LEN)).1 = -ERANGE := by
  have hch : StoredChain [(['a'], List.replicate 256 9), (['a', '@', '1'], [1])] ['a']
      CHAIN_XATTR_SHORT_BLOCK_LEN [List.replicate 256 9, [1]] :=
    ⟨Or.inl rfl, by decide, by decide, by decide, by decide, by decide⟩
  exact ⟨hch, (chain_getxattr_boundary_buffer_too_small _ ['a']
    CHAIN_XATTR_SHORT_BLOCK_LEN [List.replicate 256 9, [1]] 1 hch (by decide) (by decide)).1⟩

theorem chain_getxattr_go_step_err0 (st : Store) (name : List Char)
    (f pos size : Nat) (acc : List Nat)
    (hv : find st (get_raw_xattr_name name 0) = none) :
    chain_getxattr_go st name (f + 1) 0 pos acc size = (-ENODATA, acc) := by
  conv_lhs => unfold chain_getxattr_go
  rw [sys_getxattr_absent st _ size hv]
  simp only []
  rw [if_neg (by intro hc; exact hc.1 rfl)]
  rw [if_pos (by norm_num [ENODATA])]

theorem chain_getxattr_absent0 (st : Store) (name : List Char) (size : Nat)
    (hv : find st (get_raw_xattr_name name 0) = none) (hsz : size ≠ 0) :
    chain_getxattr st name size = (-ENODATA, []) := by
  unfold chain_getxattr
  rw [if_neg hsz]
  exact chain_getxattr_go_step_err0 st name size 0 size [] hv

/-- C7 counterexample: on an absent logical attribute the growing-buffer
read does not return an empty/zero result; it returns the propagated
-ENODATA error. -/
theorem chain_getxattr_buf_absent_counterexample :
    chain_getxattr_buf [] ['b'] 5 = (-ENODATA, []) ∧ -ENODATA ≠ (0 : Int) := by
  constructor
  · have h1 : chain_getxattr [] ['b'] 1024 = (-ENODATA, []) :=
      chain_getxattr_absent0 [] ['b'] 1024 (by decide) (by decide)
    show chain_getxattr_buf_go [] ['b'] 5 1024 = (-ENODATA, [])
    unfold chain_getxattr_buf_go
    rw [h1]
    norm_num [ENODATA, ERANGE]
  · norm_num [ENODATA]

/-- C7 amended: the growing-buffer convenience read propagates the chunk-0
"no such attribute" error (-ENODATA) unchanged when the logical attribute is
absent; it returns a zero result when the bounded read reports length 0
(attribute present with empty value); on the truncation error (-ERANGE) it
doubles the buffer size and retries; on a positive result it returns that
length with the buffer trimmed to exactly the bytes written; and any other
error is propagated unchanged. -/
theorem chain_getxattr_buf_behavior :
    (∀ (st : Store) (name : List Char) (fuel : Nat),
      find st (get_raw_xattr_name name 0) = none →
      chain_getxattr_buf st name (fuel + 1) = (-ENODATA, [])) ∧
    (∀ (st : Store) (name : List Char) (size fuel : Nat),
      (chain_getxattr st name size).1 = 0 →
      chain_getxattr_buf_go st name (fuel + 1) size = (0, [])) ∧
    (∀ (st : Store) (name : List Char) (size fuel : Nat),
      (chain_getxattr st name size).1 = -ERANGE →
      chain_getxattr_buf_go st name (fuel + 1) size =
        chain_getxattr_buf_go st name fuel (size * 2)) ∧
    (∀ (st : Store) (name : List Char) (size fuel : Nat),
      0 < (chain_getxattr st name size).1 →
      chain_getxattr_buf_go st name (fuel + 1) size = chain_getxattr st name size) ∧
    (∀ (st : Store) (name : List Char) (size fuel : Nat),
      (chain_getxattr st name size).1 < 0 →
      (chain_getxattr st name size).1 ≠ -ERANGE →
      chain_getxattr_buf_go st name (fuel + 1) size = ((chain_getxattr st name size).1, [])) := by
  refine ⟨?_, ?_, ?_, ?_, ?_⟩
  · intro st name fuel h
    have h1 : chain_getxattr st name 1024 = (-ENODATA, []) :=
      chain_getxattr_absent0 st name 1024 h (by decide)
    show chain_getxattr_buf_go st name (fuel + 1) 1024 = (-ENODATA, [])
    unfold chain_getxattr_buf_go
    rw [h1]
    norm_num [ENODATA, ERANGE]
  · intro st name size fuel h
    unfold chain_getxattr_buf_go
    rw [if_neg (by omega), if_pos h]
  · intro st name size fuel h
    conv_lhs => unfold chain_getxattr_buf_go
    rw [if_neg (by rw [h]; norm_num [ERANGE]), if_neg (by rw [h]; norm_num [ERANGE]), if_pos h]
  · intro st name size fuel h
    unfold chain_getxattr_buf_go
    rw [if_pos h]
  · intro st name size fuel h hne
    unfold chain_getxattr_buf_go
    rw [if_neg (by omega), if_neg (by omega), if_neg hne]

theorem chain_getxattr_buf_behavior_witness :
    find ([] : Store) (get_raw_xattr_name ['a'] 0) = none ∧
    chain_getxattr_buf [] ['a'] 1 = (-ENODATA, []) :=
  ⟨by decide, chain_getxattr_buf_behavior.1 [] ['a'] 0 (by decide)⟩

theorem translate_encode_zero (nm : List Char) :
    translate_raw_name (get_raw_xattr_name nm 0) = some (nm, true) := by
  simpa [get_raw_xattr_name] using translate_escape nm

theorem translate_encode_pos (nm : List Char) (i : Nat) (hi : 0 < i) :
    translate_raw_name (get_raw_xattr_name nm i) = some (nm, false) := by
  unfold get_raw_xattr_name
  rw [if_neg (by omega)]
  obtain ⟨c, rest, hrest⟩ : ∃ c rest, natChars i = c :: rest := by
    rcases h : natChars i with _ | ⟨c, rest⟩
    · exact absurd h (natChars_go_ne_nil i i)
    · exact ⟨c, rest, rfl⟩
  rw [hrest]
  have hmem : c ∈ natChars_go (i + 1) i := by
    rw [show natChars_go (i + 1) i = natChars i from rfl, hrest]
    exact List.mem_cons_self c rest
  exact translate_escape_suffix nm c rest (natChars_go_mem_ne_escape (i + 1) i c hmem)

/-- Run of the listing copy loop over a stream of encoded keys that fits the
destination: exactly the chunk-0 logical names are appended, and the byte
count advances by the sum of their lengths plus one terminator each. -/
theorem listLoop_run (len : Nat) :
    ∀ (entries : List (List Char × Nat)) (used : Nat) (acc : List (List Char)),
    used + ((entries.filter (fun e => e.2 = 0)).map (fun e => e.1.length + 1)).sum ≤ len →
    listLoop len (entries.map (fun e => get_raw_xattr_name e.1 e.2)) used acc =
      some (((used + ((entries.filter (fun e => e.2 = 0)).map (fun e => e.1.length + 1)).sum : Nat) : Int),
        acc ++ (entries.filter (fun e => e.2 = 0)).map Prod.fst) := by
  intro entries
  induction entries with
  | nil =>
    intro used acc h
    simp [listLoop]
  | cons e rest ih =>
    intro used acc h
    by_cases h0 : e.2 = 0
    · have htr : translate_raw_name (get_raw_xattr_name e.1 e.2) = some (e.1, true) := by
        rw [h0]
        exact translate_encode_zero e.1
      have hfil : (e :: rest).filter (fun e => e.2 = 0) =
          e :: rest.filter (fun e => e.2 = 0) := by
        simp [List.filter, h0]
      rw [hfil] at h ⊢
      simp only [List.map_cons, List.sum_cons] at h ⊢
      rw [show listLoop len
          (get_raw_xattr_name e.1 e.2 :: rest.map (fun e => get_raw_xattr_name e.1 e.2)) used acc =
          (match translate_raw_name (get_raw_xattr_name e.1 e.2) with
          | none => none
          | some (nm, is_first) =>
            if is_first then
              if used + nm.length > len then some (-ERANGE, acc)
              else listLoop len (rest.map (fun e => get_raw_xattr_name e.1 e.2))
                (used + nm.length + 1) (acc ++ [nm])
            else listLoop len (rest.map (fun e => get_raw_xattr_name e.1 e.2)) used acc)
        from rfl]
      rw [htr]
      simp only []
      rw [if_pos trivial]
      rw [if_neg (by omega)]
      rw [ih (used + e.1.length + 1) (acc ++ [e.1]) (by omega)]
      have hsum : used + e.1.length + 1 +
          ((rest.filter (fun e => e.2 = 0)).map (fun e => e.1.length + 1)).sum =
          used + (e.1.length + 1 +
            ((rest.filter (fun e => e.2 = 0)).map (fun e => e.1.length + 1)).sum) := by
        omega
      rw [hsum, List.append_assoc]
      rfl
    · have htr : translate_raw_name (get_raw_xattr_name e.1 e.2) = some (e.1, false) :=
        translate_encode_pos e.1 e.2 (by omega)
      have hfil : (e :: rest).filter (fun e => e.2 = 0) =
          rest.filter (fun e => e.2 = 0) := by
        simp [List.filter, h0]
      rw [hfil] at h ⊢
      simp only [List.map_cons]
      rw [show listLoop len
          (get_raw_xattr_name e.1 e.2 :: rest.map (fun e => get_raw_xattr_name e.1 e.2)) used acc =
          (match translate_raw_name (get_raw_xattr_name e.1 e.2) with
          | none => none
          | some (nm, is_first) =>
            if is_first then
              if used + nm.length > len then some (-ERANGE, acc)
              else listLoop len (rest.map (fun e => get_raw_xattr_name e.1 e.2))
                (used + nm.length + 1) (acc ++ [nm])
            else listLoop len (rest.map (fun e => get_raw_xattr_name e.1 e.2)) used acc)
        from rfl]
      rw [htr]
      simp only []
      exact ih used acc h


/-- C9: listing an object whose physical store holds encoded (chained) keys
writes exactly the decoded logical names of the chunk-0 keys, in store order,
excluding every key bearing an "@<i>" suffix and recovering names with
literal escape characters intact; the return value is the number of bytes
written (each name plus its terminator); the descriptor-addressed variant
behaves identically. -/
theorem chain_listxattr_logical_names (st : Store) (entries : List (List Char × Nat))
    (len : Nat)
    (hkeys : st.map Prod.fst = entries.map (fun e => get_raw_xattr_name e.1 e.2))
    (hlen0 : 0 < len)
    (hfit : ((entries.filter (fun e => e.2 = 0)).map (fun e => e.1.length + 1)).sum ≤ len) :
    chain_listxattr (sys_listxattr st) len =
      some (((((entries.filter (fun e => e.2 = 0)).map (fun e => e.1.length + 1)).sum : Nat) : Int),
        (entries.filter (fun e => e.2 = 0)).map Prod.fst) ∧
    chain_flistxattr (sys_listxattr st) len =
      some (((((entries.filter (fun e => e.2 = 0)).map (fun e => e.1.length + 1)).sum : Nat) : Int),
        (entries.filter (fun e => e.2 = 0)).map Prod.fst) := by
  have hlen_ne : ¬len = 0 := by omega
  have hmain : chain_listxattr (sys_listxattr st) len =
      some (((((entries.filter (fun e => e.2 = 0)).map (fun e => e.1.length + 1)).sum : Nat) : Int),
        (entries.filter (fun e => e.2 = 0)).map Prod.fst) := by
    have hr1 : sys_listxattr st 0 =
        ((((st.map (fun kv => kv.1.length + 1)).sum : Nat) : Int), []) := rfl
    have hnd : ((((st.map (fun kv => kv.1.length + 1)).sum : Nat) : Int)).toNat =
        (st.map (fun kv => kv.1.length + 1)).sum := Int.toNat_natCast _
    have h2 : ¬((st.map (fun kv => kv.1.length + 1)).sum * 2 <
        (st.map (fun kv => kv.1.length + 1)).sum) := by omega
    have hr2 : sys_listxattr st ((st.map (fun kv => kv.1.length + 1)).sum * 2) =
        (if (st.map (fun kv => kv.1.length + 1)).sum * 2 = 0 then
          ((((st.map (fun kv => kv.1.length + 1)).sum : Nat) : Int), [])
        else ((((st.map (fun kv => kv.1.length + 1)).sum : Nat) : Int), st.map Prod.fst)) := by
      unfold sys_listxattr
      rw [if_neg h2]
    unfold chain_listxattr
    rw [if_neg hlen_ne]
    rw [hr1]
    rw [show ((((st.map (fun kv => kv.1.length + 1)).sum : Nat) : Int),
      ([] : List (List Char))).1 = (((st.map (fun kv => kv.1.length + 1)).sum : Nat) : Int)
      from rfl]
    rw [hnd, hr2]
    by_cases hz : (st.map (fun kv => kv.1.length + 1)).sum * 2 = 0
    · have hst : st = [] := by
        cases st with
        | nil => rfl
        | cons kv rest => simp at hz
      have hent : entries = [] := by
        have hl := congrArg List.length hkeys
        simp [hst] at hl
        exact List.length_eq_zero.1 hl.symm
      rw [if_pos hz]
      simp only []
      rw [if_neg (by exact not_lt.2 (Int.natCast_nonneg _))]
      rw [if_neg (by exact not_lt.2 (Int.natCast_nonneg _))]
      rw [hent]
      simp [listLoop]
    · rw [if_neg hz]
      simp only []
      rw [if_neg (by exact not_lt.2 (Int.natCast_nonneg _))]
      rw [if_neg (by exact not_lt.2 (Int.natCast_nonneg _))]
      rw [hkeys]
      have hrun := listLoop_run len entries 0 [] (by simpa using hfit)
      simpa using hrun
  exact ⟨hmain, hmain⟩

theorem chain_listxattr_logical_names_witness :
    (0 : Nat) < 10 ∧
    chain_listxattr (sys_listxattr [(['a'], []), (['a', '@', '1'], []), (['b', '@', '@', 'c'], [])]) 10 =
      some (((((([(['a'], 0), (['a'], 1), (['b', '@', 'c'], 0)] : List (List Char × Nat)).filter
          (fun e => e.2 = 0)).map (fun e => e.1.length + 1)).sum : Nat) : Int),
        (([(['a'], 0), (['a'], 1), (['b', '@', 'c'], 0)] : List (List Char × Nat)).filter
          (fun e => e.2 = 0)).map Prod.fst) :=
  ⟨by decide, (chain_listxattr_logical_names
    [(['a'], []), (['a', '@', '1'], []), (['b', '@', '@', 'c'], [])]
    [(['a'], 0), (['a'], 1), (['b', '@', 'c'], 0)] 10
    (by decide) (by decide) (by decide)).1⟩

/-- C10: a zero-capacity call to the chained list operation returns exactly
twice whatever the primitive list returns for its own zero-capacity call; in
particular a primitive failure of -ENODATA reaches the caller as -122 rather
than -61. -/
theorem chain_listxattr_len_zero_doubles :
    (∀ (prim : Nat → Int × List (List Char)),
      chain_listxattr prim 0 = some ((prim 0).1 * 2, []) ∧
      chain_flistxattr prim 0 = some ((prim 0).1 * 2, [])) ∧
    chain_listxattr (fun _ => (-ENODATA, [])) 0 = some (-ENODATA * 2, []) ∧
    -ENODATA * 2 = (-122 : Int) := by
  refine ⟨fun prim => ⟨rfl, rfl⟩, rfl, by norm_num [ENODATA]⟩
